import Mathlib

/-!
# Verification of the walking-tour `TourPlayer` core

This development shallowly embeds the playback core of the walking-tour
repository (`src/js/config.js`, class `TourPlayer`) in Lean 4 and proves
properties of it: the text chunker `_buildSpeechChunks`, and the player
state machine (queue management, the playback-attempt id discipline for
asynchronous speech-engine callbacks, the auto-advance path).

Text is modelled as `List Char`.  JavaScript strings that matter to the
claims contain only plain ASCII, so `List Char` operations mirror the
JavaScript string operations exactly.  Asynchronous callbacks (utterance
`onstart` / `onend` / `onerror`, timer bodies, the fetch continuation) are
modelled as functions `PlayerState → PlayerState × List Effect`; an
environment delivers them in any order, so theorems quantify over the
states at which a callback can arrive.
-/

namespace WalkingTour

/-- JavaScript whitespace (the characters `\s` matches that can occur in
our inputs): space, tab, newline, carriage return, form feed. -/
def isWs (c : Char) : Bool :=
  c == ' ' || c == '\t' || c == '\n' || c == '\r' || c == '\x0c'

/-- Sentence-terminal punctuation from the regex `[^.!?]+[.!?]+|[^.!?]+$`. -/
def isPunct (c : Char) : Bool :=
  c == '.' || c == '!' || c == '?'

/-- Model of `text.replace(/\s+/g, ' ')`: every maximal run of whitespace
characters becomes a single space. -/
def collapseWs : List Char → List Char
  | [] => []
  | [c] => if isWs c then [' '] else [c]
  | c :: d :: rest =>
    if isWs c then
      (if isWs d then collapseWs (d :: rest) else ' ' :: collapseWs (d :: rest))
    else c :: collapseWs (d :: rest)

/-- Model of `String.prototype.trim` on the left: drop leading whitespace. -/
def dropLeadWs (l : List Char) : List Char := l.dropWhile isWs

/-- Model of `String.prototype.trim` on the right: drop trailing whitespace. -/
def dropTrailWs (l : List Char) : List Char := (l.reverse.dropWhile isWs).reverse

/-- Model of `s.trim()`. -/
def trim (l : List Char) : List Char := dropTrailWs (dropLeadWs l)

/-- `text.replace(/\s+/g, ' ').trim()`, the first line of `_buildSpeechChunks`. -/
def normalize (l : List Char) : List Char := trim (collapseWs l)

/-- Model of `s.split(' ')` (split on every single space character;
adjacent separators yield empty pieces, as in JavaScript). -/
def splitOnSpace : List Char → List (List Char)
  | [] => [[]]
  | c :: rest =>
    let r := splitOnSpace rest
    if c == ' ' then [] :: r
    else
      match r with
      | a :: as => (c :: a) :: as
      | [] => [[c]]

/-- Tail of the tiling performed by `normalized.match(/[^.!?]+[.!?]+|[^.!?]+$/g)`
from the first position at which a match can start.  `acc` holds the
current sentence in reverse, `seenPunct` records whether the current
sentence has already entered its punctuation run: a non-punctuation
character arriving after punctuation begins the next sentence. -/
def sentencesAux (acc : List Char) (seenPunct : Bool) : List Char → List (List Char)
  | [] => [acc.reverse]
  | c :: rest =>
    if isPunct c then sentencesAux (c :: acc) true rest
    else if seenPunct then acc.reverse :: sentencesAux [c] false rest
    else sentencesAux (c :: acc) false rest

/-- Model of `normalized.match(/[^.!?]+[.!?]+|[^.!?]+$/g) || [normalized]`.
A match can only start at a non-punctuation character, so the regex engine
skips a leading run of `.!?`; when the whole string is such a run (or is
empty) there is no match and the code falls back to `[normalized]`. -/
def sentenceSplit (normalized : List Char) : List (List Char) :=
  match normalized.dropWhile isPunct with
  | [] => [normalized]
  | c :: tail => sentencesAux [c] (isPunct c) tail

/-- One step of the word loop in `_buildSpeechChunks`
(`trimmed.split(' ').forEach((word) => ...)`).  The state is the pair
(chunks emitted so far, current segment). -/
def wordStep (maxLength : Nat) (acc : List (List Char) × List Char) (word : List Char) :
    List (List Char) × List Char :=
  let (chunks, segment) := acc
  if word.isEmpty then acc
  else if (trim (segment ++ ' ' :: word)).length ≤ maxLength then
    (chunks, if segment.isEmpty then word else segment ++ ' ' :: word)
  else
    ((if segment.isEmpty then chunks else chunks ++ [segment]), word)

/-- One step of the sentence loop in `_buildSpeechChunks`
(`sentenceMatches.forEach((sentence) => ...)`).  The state is the pair
(chunks emitted so far, current chunk being accumulated).  After the word
loop the last segment becomes the current chunk (`if (segment) current =
segment`). -/
def sentStep (maxLength : Nat) (acc : List (List Char) × List Char) (sentence : List Char) :
    List (List Char) × List Char :=
  let (chunks, current) := acc
  let t := trim sentence
  if t.isEmpty then acc
  else if (trim (current ++ ' ' :: t)).length ≤ maxLength then
    (chunks, if current.isEmpty then t else current ++ ' ' :: t)
  else
    let chunks1 := if current.isEmpty then chunks else chunks ++ [current]
    if t.length ≤ maxLength then (chunks1, t)
    else (splitOnSpace t).foldl (wordStep maxLength) (chunks1, [])

/-- Model of `TourPlayer._buildSpeechChunks(text, maxLength)`. -/
def buildSpeechChunks (text : List Char) (maxLength : Nat) : List (List Char) :=
  let normalized := normalize text
  if normalized.isEmpty then []
  else if normalized.length ≤ maxLength then [normalized]
  else
    let st := (sentenceSplit normalized).foldl (sentStep maxLength) ([], [])
    st.1 ++ (if st.2.isEmpty then [] else [st.2])

/-- Joining a list of chunks with single spaces (the concatenation the
spec's chunker property talks about). -/
def joinSp : List (List Char) → List Char
  | [] => []
  | [x] => x
  | x :: y :: rest => x ++ ' ' :: joinSp (y :: rest)

/-- The maximal space-separated tokens of a string — the "words" of the
normalized input. -/
def wordsOf (l : List Char) : List (List Char) :=
  (splitOnSpace l).filter (fun w => !w.isEmpty)

/-- Erase the spaces of a string (used to compare chunk output with the
input up to the spacing the chunker re-synthesizes). -/
def delSp (l : List Char) : List Char := l.filter (fun c => c != ' ')

/-- The tail of the normalized text actually covered by
`normalized.match(/[^.!?]+[.!?]+|[^.!?]+$/g) || [normalized]`: the regex
skips a leading run of sentence punctuation, except that when the whole
string is such a run the `|| [normalized]` fallback keeps it. -/
def sentenceCover (normalized : List Char) : List Char :=
  if normalized.dropWhile isPunct = [] then normalized else normalized.dropWhile isPunct

/-! ## The `TourPlayer` state machine

State fields mirror the constructor of `TourPlayer`, restricted to the
fields the claims are about.  `monitorInterval` is modelled by the Boolean
`monitorOn` (interval set or null), the Web Audio keepalive by
`silentAudioOn`, and `currentUtterance` is left to the speech-engine
environment.  `speechSynth`, `voices` and the media session are
collaborator state owned by the environment, not by the player. -/

/-- One queued track (`article`): the Wikipedia page id, the title, and
the optional `_locationContext` prefix attached by the `onTrackChange`
callback. -/
structure Article where
  pageid : Nat
  title : List Char
  locationContext : Option (List Char)
  deriving DecidableEq, Repr, Inhabited

/-- The mutable fields of `TourPlayer`. -/
structure PlayerState where
  queue : List Article
  currentIndex : Nat
  isPlaying : Bool
  autoPlayEnabled : Bool
  manuallyStopped : Bool
  playbackId : Nat
  activePlayId : Nat
  monitorOn : Bool
  silentAudioOn : Bool
  speechStartTime : Option Nat
  expectedDuration : Option Nat
  speechChunks : List (List Char)
  chunkIndex : Nat
  lastChunkEndTime : Option Nat
  isChunking : Bool
  deriving DecidableEq, Repr

/-- Observable outputs of a step: caller-facing notifications
(`onStateChange` in its two call shapes, `onTrackChange`, `onError`),
speech-engine commands, and timers handed to the event loop.  The
callbacks are modelled as always attached, as in the application code. -/
inductive Effect where
  /-- `_updateState(playing)`: `onStateChange({playing, currentIndex, queueLength})`. -/
  | stateChange (playing : Bool) (currentIndex : Nat) (queueLength : Nat)
  /-- `onStateChange({playing, completed, message})` from the end of `_scheduleNext`. -/
  | stateCompleted (playing : Bool) (completed : Bool) (message : List Char)
  /-- `onTrackChange(article, index, total)`. -/
  | trackChange (article : Article) (index : Nat) (total : Nat)
  /-- `onError(message)`. -/
  | notifyError (message : List Char)
  /-- `speechSynth.cancel()` issued by `_cancelSpeech`. -/
  | cancelSpeechEngine
  /-- The `setTimeout(..., ARTICLE_PAUSE_MS)` registered by `_scheduleNext`;
  its body is `scheduleNextFire`. -/
  | scheduleNextTimer
  /-- The `setTimeout(() => speakChunk(idx), 0)` registered between chunks. -/
  | scheduleChunkTimer (playId : Nat) (idx : Nat)
  /-- `speechSynth.speak(utterance)` for chunk `idx` of attempt `playId`. -/
  | startUtterance (playId : Nat) (idx : Nat)
  /-- The `fetchArticleExtract(pageid)` promise started by `_playArticle`;
  the environment answers it through `handleFetchResult`. -/
  | startFetch (playId : Nat) (pageid : Nat)
  /-- The settle `setTimeout(..., SPEECH_CANCEL_DELAY_MS)` in `_speak`;
  its body is `speakSettle`. -/
  | speakSettleTimer (playId : Nat) (text : List Char)
  deriving DecidableEq, Repr

/-- Outcome of the `fetchArticleExtract` collaborator: the extract text,
or a transport failure carrying the error message. -/
inductive FetchResult where
  | ok (text : List Char)
  | fail (message : List Char)
  deriving DecidableEq, Repr

/-- `'No content available'`, thrown by `_playArticle` when the fetched
text is null or empty. -/
def noContentMsg : List Char := ("No content available").data

/-- `'Completed tour of all places.'`. -/
def completedMsg : List Char := ("Completed tour of all places.").data

/-- `SPEECH_CHUNK_MAX_CHARS`. -/
def SPEECH_CHUNK_MAX_CHARS : Nat := 1200

/-- The state mutations of `_cancelSpeech` (the `speechSynth.cancel()`
call is the `cancelSpeechEngine` effect, emitted by the callers). -/
def cancelSpeechFields (s : PlayerState) : PlayerState :=
  { s with speechChunks := [], chunkIndex := 0, lastChunkEndTime := none, isChunking := false }

/-- `stop()`: set the manual-stop flag, zero the active attempt id, cancel
speech, clear monitoring, stop the keepalive, notify not-playing.  Note
that `stop` does not change `playbackId` and does not touch any pending
`_scheduleNext` timer (no handle to it is kept). -/
def stop (s : PlayerState) : PlayerState × List Effect :=
  let s1 := cancelSpeechFields { s with manuallyStopped := true, activePlayId := 0 }
  let s2 := { s1 with monitorOn := false, silentAudioOn := false }
  (s2, [Effect.cancelSpeechEngine, Effect.stateChange false s2.currentIndex s2.queue.length])

/-- The synchronous part of `_playArticle(article)`: allocate a fresh
attempt id, cancel existing speech, clear the manual-stop flag, fire
`onTrackChange`, and start the content fetch.  The `await` suspends
there; the environment resumes through `handleFetchResult`. -/
def playArticleSync (s : PlayerState) : PlayerState × List Effect :=
  let pid := s.playbackId + 1
  let a := s.queue.getD s.currentIndex default
  let s1 := cancelSpeechFields { s with playbackId := pid, activePlayId := pid }
  let s2 := { s1 with manuallyStopped := false }
  (s2, [Effect.cancelSpeechEngine, Effect.trackChange a s2.currentIndex s2.queue.length,
        Effect.startFetch pid a.pageid])

/-- `play()`: warn-and-return on an empty queue; reset `currentIndex` to 0
when it is past the end; then `_playArticle(queue[currentIndex])`. -/
def play (s : PlayerState) : PlayerState × List Effect :=
  if s.queue.length = 0 then (s, [])
  else
    playArticleSync (if s.queue.length ≤ s.currentIndex then { s with currentIndex := 0 } else s)

/-- `playTrack(index)`: silently ignore an out-of-bounds index (with only
a console warning), else set `currentIndex` and `play()`. -/
def playTrack (index : Int) (s : PlayerState) : PlayerState × List Effect :=
  if index < 0 || (s.queue.length : Int) ≤ index then (s, [])
  else play { s with currentIndex := index.toNat }

/-- `next()`. -/
def next (s : PlayerState) : PlayerState × List Effect :=
  if s.currentIndex + 1 < s.queue.length then play { s with currentIndex := s.currentIndex + 1 }
  else (s, [])

/-- `previous()`. -/
def previous (s : PlayerState) : PlayerState × List Effect :=
  if 0 < s.currentIndex then play { s with currentIndex := s.currentIndex - 1 }
  else (s, [])

/-- `loadQueue(articles)`. -/
def loadQueue (articles : List Article) (s : PlayerState) : PlayerState :=
  { s with queue := articles, currentIndex := 0 }

/-- `updateQueue(articles)`: replace the queue; clamp `currentIndex` to
`length - 1` only when it is past the end **and** the new queue is
non-empty. -/
def updateQueue (articles : List Article) (s : PlayerState) : PlayerState :=
  { s with queue := articles,
           currentIndex :=
             if articles.length ≤ s.currentIndex ∧ 0 < articles.length then
               articles.length - 1
             else s.currentIndex }

/-- `_handleSpeechEnd(playId)`.  The guard is `if (playId && playId !==
this.playbackId) return`: a missing (`none`, from the liveness monitor) or
zero id skips the staleness check.  Otherwise: clear playing state, notify,
stop monitoring, and schedule the next track when auto-play is on and the
player was not manually stopped. -/
def handleSpeechEnd (playId : Option Nat) (s : PlayerState) : PlayerState × List Effect :=
  if playId.getD 0 ≠ 0 ∧ playId.getD 0 ≠ s.playbackId then (s, [])
  else
    let s1 := { s with isPlaying := false, monitorOn := false }
    let e1 := [Effect.stateChange false s1.currentIndex s1.queue.length]
    if s1.autoPlayEnabled && !s1.manuallyStopped then (s1, e1 ++ [Effect.scheduleNextTimer])
    else (s1, e1)

/-- The body of the `setTimeout(..., ARTICLE_PAUSE_MS)` registered by
`_scheduleNext`.  It re-checks nothing: no `manuallyStopped` test and no
attempt-id test.  Either advance and `play()`, or emit the completed
notification and stop the keepalive. -/
def scheduleNextFire (s : PlayerState) : PlayerState × List Effect :=
  if s.currentIndex + 1 < s.queue.length then
    play { s with currentIndex := s.currentIndex + 1 }
  else
    ({ s with silentAudioOn := false }, [Effect.stateCompleted false true completedMsg])

/-- The catch block of `_playArticle`: `onError(message)` then the same
advance-or-stop decision as `_handleSpeechEnd` (`if (autoPlayEnabled &&
!manuallyStopped) _scheduleNext(); else _stopSilentAudio()`). -/
def playbackErrorPath (message : List Char) (s : PlayerState) : PlayerState × List Effect :=
  if s.autoPlayEnabled && !s.manuallyStopped then
    (s, [Effect.notifyError message, Effect.scheduleNextTimer])
  else
    ({ s with silentAudioOn := false }, [Effect.notifyError message])

/-- `'150 * 0.9'` words per minute converted to a millisecond estimate,
`_estimateDuration`.  The reference computes in floating point; the Lean
model floors, which differs by under one millisecond and is never
load-bearing for the claims. -/
def estimateDuration (text : List Char) : Nat :=
  (wordsOf text).length * 60000 / 135

/-- The speech text built by `_playArticle` on a successful fetch:
`locationContext (if any) + title + '. ' + text`. -/
def speechTextFor (a : Article) (text : List Char) : List Char :=
  a.locationContext.getD [] ++ a.title ++ '.' :: ' ' :: text

/-- The continuation of `await fetchArticleExtract(...)` inside
`_playArticle`, for the attempt `playId` that started the fetch (note
that the catch path runs with no staleness guard).  Null/empty text throws
`'No content available'` into the same catch as a transport failure.  On
success `_updateMediaMetadata` (environment-side) runs and
`_speak(speechText, playId)` registers the settle timer. -/
def handleFetchResult (playId : Nat) (a : Article) (r : FetchResult) (s : PlayerState) :
    PlayerState × List Effect :=
  match r with
  | FetchResult.fail message => playbackErrorPath message s
  | FetchResult.ok text =>
    if text.isEmpty then playbackErrorPath noContentMsg s
    else (s, [Effect.speakSettleTimer playId (speechTextFor a text)])

/-- `speakChunk(index)` from `_speak`: resolve quietly when manually
stopped or when the attempt id is no longer current; otherwise record the
chunk index and submit the utterance to the engine. -/
def speakChunkStep (playId : Nat) (idx : Nat) (s : PlayerState) : PlayerState × List Effect :=
  if s.manuallyStopped then (s, [])
  else if playId ≠ s.playbackId then (s, [])
  else ({ s with chunkIndex := idx }, [Effect.startUtterance playId idx])

/-- The body of the settle `setTimeout(..., SPEECH_CANCEL_DELAY_MS)` in
`_speak`, assuming the environment reports voices as loaded (the
no-voices reject follows `playbackErrorPath` like every other reject).
Builds the chunks, initializes chunk bookkeeping, and runs
`speakChunk(0)`. -/
def speakSettle (playId : Nat) (text : List Char) (s : PlayerState) : PlayerState × List Effect :=
  let chunks := buildSpeechChunks text SPEECH_CHUNK_MAX_CHARS
  let s1 := { s with speechChunks := chunks, chunkIndex := 0, lastChunkEndTime := none,
                     isChunking := decide (1 < chunks.length),
                     expectedDuration := some (estimateDuration text) }
  if chunks.isEmpty then playbackErrorPath ("Speech text is empty").data s1
  else speakChunkStep playId 0 s1

/-- The utterance `onstart` callback for chunk `idx` of attempt `playId`,
arriving at wall-clock `now`.  Stale attempts return immediately; chunk 0
of the current attempt starts playing state, monitoring and the
keepalive. -/
def utteranceOnStart (playId : Nat) (idx : Nat) (now : Nat) (s : PlayerState) :
    PlayerState × List Effect :=
  if playId ≠ s.playbackId then (s, [])
  else if idx = 0 then
    let s1 := { s with isPlaying := true, speechStartTime := some now,
                       monitorOn := true, silentAudioOn := true }
    (s1, [Effect.stateChange true s1.currentIndex s1.queue.length])
  else (s, [])

/-- The utterance `onend` callback for chunk `idx` of attempt `playId` at
wall-clock `now`.  Stale attempts resolve and return; the current attempt
records the chunk-end time and either schedules the next chunk or runs
`_handleSpeechEnd(playId)`. -/
def utteranceOnEnd (playId : Nat) (idx : Nat) (now : Nat) (s : PlayerState) :
    PlayerState × List Effect :=
  if playId ≠ s.playbackId then (s, [])
  else
    let s1 := { s with lastChunkEndTime := some now }
    if idx + 1 < s1.speechChunks.length then (s1, [Effect.scheduleChunkTimer playId (idx + 1)])
    else handleSpeechEnd (some playId) s1

/-- The utterance `onerror` callback of attempt `playId`.  Stale attempts
resolve and return.  The current attempt clears playing state and
monitoring; a non-`'canceled'` error then rejects `_speak`, which lands in
the catch of `_playArticle` (`playbackErrorPath`); `'canceled'` resolves
quietly. -/
def utteranceOnError (playId : Nat) (canceled : Bool) (message : List Char) (s : PlayerState) :
    PlayerState × List Effect :=
  if playId ≠ s.playbackId then (s, [])
  else
    let s1 := { s with isPlaying := false, monitorOn := false }
    let e1 := [Effect.stateChange false s1.currentIndex s1.queue.length]
    if !canceled then
      let (s2, e2) := playbackErrorPath message s1
      (s2, e1 ++ e2)
    else (s1, e1)

/-- One poll of `_checkSpeechStatus`, with the engine's `speaking` flag
supplied by the environment.  Manually stopped players skip the check;
within 1500 ms of a chunk boundary (while chunking) the check is
suppressed; otherwise a playing player whose engine is silent, or whose
narration has exceeded the duration estimate plus the 5000 ms grace
period, runs `_handleSpeechEnd()` with no attempt id. -/
def checkSpeechStatus (now : Nat) (engineSpeaking : Bool) (s : PlayerState) :
    PlayerState × List Effect :=
  let recentChunkEnd : Bool :=
    match s.lastChunkEndTime with
    | some t => decide (now - t < 1500)
    | none => false
  let timedOut : Bool :=
    match s.speechStartTime, s.expectedDuration with
    | some st, some d => decide (d + 5000 < now - st)
    | _, _ => false
  if s.manuallyStopped then (s, [])
  else if s.isChunking && recentChunkEnd then (s, [])
  else if s.isPlaying && !engineSpeaking then handleSpeechEnd none s
  else if s.isPlaying && timedOut then handleSpeechEnd none s
  else (s, [])

/-! ## Property vocabulary and concrete sample states -/

/-- The string has no whitespace at either edge, so `trim` is the
identity on it. -/
def EdgeClean (l : List Char) : Prop :=
  (∀ a ∈ l.head?, isWs a = false) ∧ (∀ a ∈ l.getLast?, isWs a = false)

/-- The only whitespace character occurring in the string is a plain
space.  This holds for every substring of a normalized text. -/
def OnlySpaceWs (l : List Char) : Prop := ∀ c ∈ l, isWs c = true → c = ' '

/-- The shape every produced chunk satisfies: non-empty, and within the
size limit unless it is a single space-free token. -/
def chunkOk (maxChars : Nat) (c : List Char) : Prop :=
  c ≠ [] ∧ (c.length ≤ maxChars ∨ ' ' ∉ c)

/-- The text carried by an intermediate state of the chunking fold: the
emitted chunks followed by the chunk under construction. -/
def flattenSt (st : List (List Char) × List Char) : List Char := st.1.flatten ++ st.2

/-- Invariant of the chunking fold state. -/
def StInv (maxChars : Nat) (st : List (List Char) × List Char) : Prop :=
  (∀ c ∈ st.1, chunkOk maxChars c) ∧
    (st.2 = [] ∨ (chunkOk maxChars st.2 ∧ EdgeClean st.2))

/-- Sample tracks for concrete witness states. -/
def articleA : Article := { pageid := 10, title := ("Castle").data, locationContext := none }

/-- Second sample track. -/
def articleB : Article := { pageid := 11, title := ("Bridge").data, locationContext := none }

/-- Third sample track. -/
def articleC : Article := { pageid := 12, title := ("Museum").data, locationContext := none }

/-- A player state in the middle of narrating the single chunk of track 0
of a two-track queue: attempt 1 is active, monitoring runs, nothing was
stopped. -/
def playingState : PlayerState :=
  { queue := [articleA, articleB], currentIndex := 0, isPlaying := true,
    autoPlayEnabled := true, manuallyStopped := false, playbackId := 1, activePlayId := 1,
    monitorOn := true, silentAudioOn := true, speechStartTime := some 1000,
    expectedDuration := some 4000, speechChunks := [("hello").data], chunkIndex := 0,
    lastChunkEndTime := none, isChunking := false }

/-- An idle player state whose queue has three tracks and whose cursor
sits on track 1. -/
def idleState : PlayerState :=
  { queue := [articleA, articleB, articleC], currentIndex := 1, isPlaying := false,
    autoPlayEnabled := true, manuallyStopped := false, playbackId := 2, activePlayId := 0,
    monitorOn := false, silentAudioOn := false, speechStartTime := none,
    expectedDuration := none, speechChunks := [], chunkIndex := 0,
    lastChunkEndTime := none, isChunking := false }

/-- The state right after `stop()` was called mid-narration. -/
def stoppedState : PlayerState := (stop playingState).1

/-! ## Trimming lemmas -/

lemma head?_dropWhile (p : Char → Bool) :
    ∀ (l : List Char) (a : Char), (l.dropWhile p).head? = some a → p a = false := by
  intro l
  induction l with
  | nil => intro a h; simp at h
  | cons c t ih =>
    intro a h
    rw [List.dropWhile_cons] at h
    by_cases hc : p c = true
    · exact ih a (by simpa [hc] using h)
    · simp only [hc] at h
      simp only [Bool.false_eq_true, if_false, List.head?_cons, Option.some.injEq] at h
      subst h
      simpa using hc

lemma dropLeadWs_eq_self (l : List Char) (h : ∀ a ∈ l.head?, isWs a = false) :
    dropLeadWs l = l := by
  cases l with
  | nil => rfl
  | cons c t =>
    have hc : isWs c = false := h c (by simp)
    simp [dropLeadWs, List.dropWhile_cons, hc]

lemma dropTrailWs_concat (l : List Char) (b : Char) :
    dropTrailWs (l ++ [b]) = if isWs b then dropTrailWs l else l ++ [b] := by
  by_cases hb : isWs b = true
  · simp [dropTrailWs, List.dropWhile_cons, hb]
  · simp [dropTrailWs, List.dropWhile_cons, hb]

lemma dropTrailWs_eq_self (l : List Char) (h : ∀ a ∈ l.getLast?, isWs a = false) :
    dropTrailWs l = l := by
  rcases List.eq_nil_or_concat l with hnil | ⟨L, b, rfl⟩
  · subst hnil; rfl
  · have hb : isWs b = false := by
      apply h
      simp [List.concat_eq_append, List.getLast?_concat]
    simp [List.concat_eq_append, dropTrailWs_concat, hb]

lemma trim_eq_self_of_edgeClean (l : List Char) (h : EdgeClean l) : trim l = l := by
  unfold trim
  rw [dropLeadWs_eq_self l h.1, dropTrailWs_eq_self l h.2]

lemma head?_dropTrailWs (m : List Char) (a : Char) (h : (dropTrailWs m).head? = some a) :
    m.head? = some a := by
  induction m using List.reverseRecOn with
  | nil => simp [dropTrailWs] at h
  | append_singleton n b ih =>
    rw [dropTrailWs_concat] at h
    by_cases hb : isWs b = true
    · rw [if_pos hb] at h
      have hn := ih h
      have hne : n ≠ [] := by
        intro hcon; subst hcon; simp at hn
      rw [List.head?_append]
      rw [hn, Option.or_some]
    · rw [if_neg (by simp [hb])] at h
      exact h

lemma edgeClean_trim (l : List Char) : EdgeClean (trim l) := by
  constructor
  · intro a ha
    simp only [Option.mem_def] at ha
    have h1 : (dropLeadWs l).head? = some a := head?_dropTrailWs _ a ha
    exact head?_dropWhile isWs l a h1
  · intro a ha
    simp only [Option.mem_def] at ha
    unfold trim dropTrailWs at ha
    rw [List.getLast?_reverse] at ha
    exact head?_dropWhile isWs _ a ha

lemma edgeClean_of_noWs (w : List Char) (h : ∀ c ∈ w, isWs c = false) : EdgeClean w := by
  constructor
  · intro a ha
    exact h a (List.mem_of_mem_head? ha)
  · intro a ha
    apply h a
    rw [← List.head?_reverse] at ha
    exact List.mem_reverse.mp (List.mem_of_mem_head? ha)

lemma edgeClean_append_sep (l t : List Char) (hl : l ≠ []) (ht : t ≠ [])
    (el : EdgeClean l) (et : EdgeClean t) : EdgeClean (l ++ ' ' :: t) := by
  constructor
  · intro a ha
    rw [List.head?_append] at ha
    cases hh : l.head? with
    | none => exact absurd (List.head?_eq_none_iff.mp hh) hl
    | some c =>
      rw [hh, Option.or_some] at ha
      simp only [Option.mem_def, Option.some.injEq] at ha
      subst ha
      exact el.1 c (by simp [hh])
  · intro a ha
    rcases List.eq_nil_or_concat t with hnil | ⟨T, b, rfl⟩
    · exact absurd hnil ht
    · have heq : l ++ ' ' :: (T ++ [b]) = (l ++ ' ' :: T) ++ [b] := by simp
      rw [List.concat_eq_append, heq, List.getLast?_concat] at ha
      have hab : a = b := by
        have := ha
        simp only [Option.mem_def, Option.some.injEq] at this
        exact this.symm
      have hb : isWs b = false :=
        et.2 b (by simp [List.concat_eq_append, List.getLast?_concat])
      rw [hab]
      exact hb

lemma trim_space_cons (t : List Char) : trim (' ' :: t) = trim t := by
  unfold trim dropLeadWs
  rw [List.dropWhile_cons]
  simp [isWs]

/-! ## Splitting and whitespace lemmas -/

lemma splitOnSpace_ne_nil : ∀ l : List Char, splitOnSpace l ≠ []
  | [] => by simp [splitOnSpace]
  | c :: rest => by
    simp only [splitOnSpace]
    by_cases hc : (c == ' ') = true
    · simp [hc]
    · simp only [hc, Bool.false_eq_true, if_false]
      cases h : splitOnSpace rest with
      | nil => simp
      | cons a as => simp

lemma flatten_splitOnSpace (l : List Char) : (splitOnSpace l).flatten = delSp l := by
  induction l with
  | nil => simp [splitOnSpace, delSp]
  | cons c rest ih =>
    simp only [splitOnSpace]
    by_cases hc : (c == ' ') = true
    · have hc' : c = ' ' := beq_iff_eq.mp hc
      subst hc'
      simp only [hc, if_true]
      simp only [List.flatten_cons, List.nil_append, ih, delSp, List.filter_cons]
      simp
    · simp only [hc, Bool.false_eq_true, if_false]
      cases h : splitOnSpace rest with
      | nil => exact absurd h (splitOnSpace_ne_nil rest)
      | cons a as =>
        have hflat : (a :: as).flatten = delSp rest := by rw [← h, ih]
        simp only [List.flatten_cons] at hflat ⊢
        have hcne : (c != ' ') = true := by simpa using hc
        simp only [delSp, List.filter_cons, hcne, if_true]
        rw [List.cons_append, hflat]
        rfl

lemma mem_splitOnSpace_no_space (l : List Char) :
    ∀ w ∈ splitOnSpace l, ' ' ∉ w := by
  induction l with
  | nil =>
    intro w hw
    simp [splitOnSpace] at hw
    simp [hw]
  | cons c rest ih =>
    intro w hw
    simp only [splitOnSpace] at hw
    by_cases hc : (c == ' ') = true
    · simp only [hc, if_true, List.mem_cons] at hw
      rcases hw with rfl | hw
      · simp
      · exact ih w hw
    · simp only [hc, Bool.false_eq_true, if_false] at hw
      cases h : splitOnSpace rest with
      | nil => exact absurd h (splitOnSpace_ne_nil rest)
      | cons a as =>
        rw [h] at hw
        simp only [List.mem_cons] at hw
        rcases hw with rfl | hw
        · intro hmem
          rcases List.mem_cons.mp hmem with rfl | hmem'
          · simp at hc
          · exact ih a (h ▸ List.mem_cons_self a as) hmem'
        · exact ih w (h ▸ List.mem_cons_of_mem a hw)

lemma mem_splitOnSpace_subset (l w : List Char) (hw : w ∈ splitOnSpace l) :
    ∀ c ∈ w, c ∈ l := by
  intro c hc
  have hflat : c ∈ (splitOnSpace l).flatten := List.mem_flatten.mpr ⟨w, hw, hc⟩
  rw [flatten_splitOnSpace] at hflat
  exact List.mem_of_mem_filter hflat

lemma sentencesAux_flatten :
    ∀ (rest : List Char) (acc : List Char) (b : Bool),
      (sentencesAux acc b rest).flatten = acc.reverse ++ rest := by
  intro rest
  induction rest with
  | nil => intro acc b; simp [sentencesAux]
  | cons c r ih =>
    intro acc b
    simp only [sentencesAux]
    by_cases hc : isPunct c = true
    · simp only [hc, if_true, ih]
      simp
    · simp only [hc, Bool.false_eq_true, if_false]
      cases b with
      | true =>
        simp only [if_true, List.flatten_cons, ih]
        simp
      | false =>
        simp only [Bool.false_eq_true, if_false, ih]
        simp

lemma sentenceSplit_flatten (n : List Char) :
    (sentenceSplit n).flatten = sentenceCover n := by
  unfold sentenceSplit sentenceCover
  cases h : n.dropWhile isPunct with
  | nil => simp [h]
  | cons c tail =>
    rw [sentencesAux_flatten]
    simp [h]

lemma onlySpaceWs_collapseWs : ∀ l : List Char, OnlySpaceWs (collapseWs l) := by
  intro l
  induction l with
  | nil => intro c hc; simp [collapseWs] at hc
  | cons a t ih =>
    cases t with
    | nil =>
      intro c hc hws
      simp only [collapseWs] at hc
      by_cases ha : isWs a = true
      · simp only [ha, if_true, List.mem_singleton] at hc
        exact hc
      · simp only [ha, Bool.false_eq_true, if_false, List.mem_singleton] at hc
        subst hc
        exact absurd hws (by simp [ha])
    | cons d r =>
      intro c hc hws
      simp only [collapseWs] at hc
      by_cases ha : isWs a = true
      · by_cases hd : isWs d = true
        · simp only [ha, hd, if_true] at hc
          exact ih c hc hws
        · simp only [ha, hd, Bool.false_eq_true, if_false, if_true, List.mem_cons] at hc
          rcases hc with rfl | hc
          · rfl
          · exact ih c hc hws
      · simp only [ha, Bool.false_eq_true, if_false, List.mem_cons] at hc
        rcases hc with rfl | hc
        · exact absurd hws (by simp [ha])
        · exact ih c hc hws

lemma trim_subset (l : List Char) : ∀ c ∈ trim l, c ∈ l := by
  intro c hc
  unfold trim dropTrailWs dropLeadWs at hc
  rw [List.mem_reverse] at hc
  have h1 := (List.dropWhile_sublist (l := (List.dropWhile isWs l).reverse) isWs).subset hc
  rw [List.mem_reverse] at h1
  exact (List.dropWhile_sublist (l := l) isWs).subset h1

lemma onlySpaceWs_normalize (l : List Char) : OnlySpaceWs (normalize l) := by
  intro c hc hws
  exact onlySpaceWs_collapseWs l c (trim_subset _ c hc) hws

lemma onlySpaceWs_subset (l m : List Char) (h : ∀ c ∈ m, c ∈ l)
    (hl : OnlySpaceWs l) : OnlySpaceWs m := by
  intro c hc hws
  exact hl c (h c hc) hws

lemma noWs_of_no_space (w : List Char) (hsp : ' ' ∉ w) (hos : OnlySpaceWs w) :
    ∀ c ∈ w, isWs c = false := by
  intro c hc
  by_contra hcon
  have : isWs c = true := by
    cases h : isWs c
    · exact absurd h hcon
    · rfl
  exact hsp (hos c hc this ▸ hc)

lemma mem_sentenceSplit_subset (n s : List Char) (hs : s ∈ sentenceSplit n) :
    ∀ c ∈ s, c ∈ n := by
  intro c hc
  have h1 : c ∈ (sentenceSplit n).flatten := List.mem_flatten.mpr ⟨s, hs, hc⟩
  rw [sentenceSplit_flatten] at h1
  unfold sentenceCover at h1
  split at h1
  · exact h1
  · exact (List.dropWhile_sublist isPunct).subset h1

/-! ## The chunking fold preserves the chunk-shape invariant -/

lemma wordStep_inv (max : Nat) (chunks : List (List Char)) (seg : List Char) (w : List Char)
    (hst : StInv max (chunks, seg)) (hw : ' ' ∉ w) (hos : OnlySpaceWs w) :
    StInv max (wordStep max (chunks, seg) w) := by
  obtain ⟨hchunks, hseg⟩ := hst
  by_cases hwe : w.isEmpty = true
  · simp only [wordStep, hwe, if_true]
    exact ⟨hchunks, hseg⟩
  · have hwne : w ≠ [] := by simpa [List.isEmpty_iff] using hwe
    have hnows : ∀ c ∈ w, isWs c = false := noWs_of_no_space w hw hos
    have hecw : EdgeClean w := edgeClean_of_noWs w hnows
    simp only [wordStep, hwe, Bool.false_eq_true, if_false]
    by_cases hlen : (trim (seg ++ ' ' :: w)).length ≤ max
    · rw [if_pos hlen]
      by_cases hse : seg.isEmpty = true
      · simp only [hse, if_true]
        exact ⟨hchunks, Or.inr ⟨⟨hwne, Or.inr hw⟩, hecw⟩⟩
      · have hsegne : seg ≠ [] := by simpa [List.isEmpty_iff] using hse
        rcases hseg with rfl | ⟨hok, hec⟩
        · exact absurd rfl hsegne
        · simp only [hse, Bool.false_eq_true, if_false]
          have hecnew : EdgeClean (seg ++ ' ' :: w) :=
            edgeClean_append_sep seg w hsegne hwne hec hecw
          refine ⟨hchunks, Or.inr ⟨⟨by simp, Or.inl ?_⟩, hecnew⟩⟩
          rwa [trim_eq_self_of_edgeClean _ hecnew] at hlen
    · rw [if_neg hlen]
      refine ⟨?_, Or.inr ⟨⟨hwne, Or.inr hw⟩, hecw⟩⟩
      by_cases hse : seg.isEmpty = true
      · simpa [hse] using hchunks
      · have hsegne : seg ≠ [] := by simpa [List.isEmpty_iff] using hse
        rcases hseg with rfl | ⟨hok, _⟩
        · exact absurd rfl hsegne
        · simp only [hse, Bool.false_eq_true, if_false]
          intro c hcmem
          rcases List.mem_append.mp hcmem with hcm | hcm
          · exact hchunks c hcm
          · rw [List.mem_singleton.mp hcm]
            exact hok

lemma foldl_wordStep_inv (max : Nat) (ws : List (List Char)) :
    ∀ st, StInv max st → (∀ w ∈ ws, ' ' ∉ w ∧ OnlySpaceWs w) →
      StInv max (ws.foldl (wordStep max) st) := by
  induction ws with
  | nil =>
    intro st h _
    simpa using h
  | cons w rest ih =>
    intro st hst hws
    rw [List.foldl_cons]
    obtain ⟨c1, c2⟩ := st
    exact ih _ (wordStep_inv max c1 c2 w hst (hws w (by simp)).1 (hws w (by simp)).2)
      (fun w' hw' => hws w' (List.mem_cons_of_mem _ hw'))

lemma sentStep_inv (max : Nat) (chunks : List (List Char)) (cur : List Char) (s : List Char)
    (hst : StInv max (chunks, cur)) (hos : OnlySpaceWs s) :
    StInv max (sentStep max (chunks, cur) s) := by
  obtain ⟨hchunks, hcur⟩ := hst
  have htos : OnlySpaceWs (trim s) := onlySpaceWs_subset s (trim s) (trim_subset s) hos
  have hect : EdgeClean (trim s) := edgeClean_trim s
  have htt : trim (trim s) = trim s := trim_eq_self_of_edgeClean _ hect
  by_cases hte : (trim s).isEmpty = true
  · simp only [sentStep, hte, if_true]
    exact ⟨hchunks, hcur⟩
  · have htne : trim s ≠ [] := by simpa [List.isEmpty_iff] using hte
    simp only [sentStep, hte, Bool.false_eq_true, if_false]
    by_cases hmerge : (trim (cur ++ ' ' :: trim s)).length ≤ max
    · rw [if_pos hmerge]
      by_cases hce : cur.isEmpty = true
      · have hcnil : cur = [] := by simpa [List.isEmpty_iff] using hce
        simp only [hce, if_true]
        refine ⟨hchunks, Or.inr ⟨⟨htne, Or.inl ?_⟩, hect⟩⟩
        rw [hcnil, List.nil_append, trim_space_cons, htt] at hmerge
        exact hmerge
      · have hcne : cur ≠ [] := by simpa [List.isEmpty_iff] using hce
        rcases hcur with rfl | ⟨hok, hec⟩
        · exact absurd rfl hcne
        · simp only [hce, Bool.false_eq_true, if_false]
          have hecnew : EdgeClean (cur ++ ' ' :: trim s) :=
            edgeClean_append_sep cur (trim s) hcne htne hec hect
          refine ⟨hchunks, Or.inr ⟨⟨by simp, Or.inl ?_⟩, hecnew⟩⟩
          rwa [trim_eq_self_of_edgeClean _ hecnew] at hmerge
    · rw [if_neg hmerge]
      have hchunks1 : ∀ c ∈ (if cur.isEmpty then chunks else chunks ++ [cur]),
          chunkOk max c := by
        by_cases hce : cur.isEmpty = true
        · simpa [hce] using hchunks
        · have hcne : cur ≠ [] := by simpa [List.isEmpty_iff] using hce
          rcases hcur with rfl | ⟨hok, _⟩
          · exact absurd rfl hcne
          · simp only [hce, Bool.false_eq_true, if_false]
            intro c hcmem
            rcases List.mem_append.mp hcmem with hcm | hcm
            · exact hchunks c hcm
            · rw [List.mem_singleton.mp hcm]
              exact hok
      by_cases hlt : (trim s).length ≤ max
      · rw [if_pos hlt]
        exact ⟨hchunks1, Or.inr ⟨⟨htne, Or.inl hlt⟩, hect⟩⟩
      · rw [if_neg hlt]
        apply foldl_wordStep_inv max (splitOnSpace (trim s)) _ ⟨hchunks1, Or.inl rfl⟩
        intro w hw
        refine ⟨mem_splitOnSpace_no_space (trim s) w hw, ?_⟩
        exact onlySpaceWs_subset (trim s) w (mem_splitOnSpace_subset (trim s) w hw) htos

lemma foldl_sentStep_inv (max : Nat) (ss : List (List Char)) :
    ∀ st, StInv max st → (∀ s ∈ ss, OnlySpaceWs s) →
      StInv max (ss.foldl (sentStep max) st) := by
  induction ss with
  | nil =>
    intro st h _
    simpa using h
  | cons s rest ih =>
    intro st hst hss
    rw [List.foldl_cons]
    obtain ⟨c1, c2⟩ := st
    exact ih _ (sentStep_inv max c1 c2 s hst (hss s (by simp)))
      (fun s' hs' => hss s' (List.mem_cons_of_mem _ hs'))

lemma sentenceSplit_onlySpaceWs (text : List Char) :
    ∀ s ∈ sentenceSplit (normalize text), OnlySpaceWs s := fun s hs =>
  onlySpaceWs_subset (normalize text) s (mem_sentenceSplit_subset _ s hs)
    (onlySpaceWs_normalize text)

/-- **C2 (amended).**  For every input text and every `maxChars > 0`, every
chunk returned by `_buildSpeechChunks` is a non-empty string, and has
length at most `maxChars` unless it is a single space-free token (which
may exceed `maxChars`).  The original claim's stronger clause — that an
oversized word is passed through as one *unsplit* chunk — fails when the
word contains sentence punctuation; see `oversized_word_split_at_punct`. -/
theorem buildSpeechChunks_chunkOk (text : List Char) (maxChars : Nat) (_hpos : 0 < maxChars) :
    ∀ c ∈ buildSpeechChunks text maxChars, c ≠ [] ∧ (c.length ≤ maxChars ∨ ' ' ∉ c) := by
  intro c hc
  unfold buildSpeechChunks at hc
  by_cases hne : (normalize text).isEmpty = true
  · simp [hne] at hc
  · by_cases hfit : (normalize text).length ≤ maxChars
    · simp only [hne, Bool.false_eq_true, if_false, if_pos hfit, List.mem_singleton] at hc
      subst hc
      exact ⟨by simpa [List.isEmpty_iff] using hne, Or.inl hfit⟩
    · simp only [hne, Bool.false_eq_true, if_false, if_neg hfit] at hc
      have hinv : StInv maxChars
          ((sentenceSplit (normalize text)).foldl (sentStep maxChars) ([], [])) :=
        foldl_sentStep_inv maxChars (sentenceSplit (normalize text)) ([], [])
          ⟨by simp, Or.inl rfl⟩ (sentenceSplit_onlySpaceWs text)
      set st := (sentenceSplit (normalize text)).foldl (sentStep maxChars) ([], []) with hst
      rcases List.mem_append.mp hc with hcm | hcm
      · exact hinv.1 c hcm
      · by_cases hse : st.2.isEmpty = true
        · simp [hse] at hcm
        · simp only [hse, Bool.false_eq_true, if_false, List.mem_singleton] at hcm
          subst hcm
          rcases hinv.2 with hnil | ⟨hok, _⟩
          · exact absurd hnil (by simpa [List.isEmpty_iff] using hse)
          · exact hok

/-- Witness for `buildSpeechChunks_chunkOk` at a concrete input. -/
theorem buildSpeechChunks_chunkOk_witness :
    0 < 5 ∧ ∀ c ∈ buildSpeechChunks ("hello brave world.").data 5,
      c ≠ [] ∧ (c.length ≤ 5 ∨ ' ' ∉ c) :=
  ⟨by decide, buildSpeechChunks_chunkOk ("hello brave world.").data 5 (by decide)⟩

/-- **C2, counterexample to the claim as stated.**  With `maxChars = 2`
the normalized input `"aaa.b"` is a single word of length `5 > 2`, yet it
is *not* passed through as one unsplit chunk: the sentence regex splits it
at the period and the produced chunk `"aaa."` exceeds `maxChars` without
being a word of the input. -/
theorem oversized_word_split_at_punct :
    (("aaa.b").data ∈ wordsOf (normalize ("aaa.b").data)
        ∧ 2 < ("aaa.b").data.length
        ∧ ("aaa.b").data ∉ buildSpeechChunks ("aaa.b").data 2)
      ∧ ∃ c ∈ buildSpeechChunks ("aaa.b").data 2,
          2 < c.length ∧ c ∉ wordsOf (normalize ("aaa.b").data) := by
  decide

/-! ## Character-content preservation of the chunking fold -/

lemma delSp_append (a b : List Char) : delSp (a ++ b) = delSp a ++ delSp b :=
  List.filter_append a b

lemma delSp_space_cons (l : List Char) : delSp (' ' :: l) = delSp l := by
  simp [delSp, List.filter_cons]

lemma delSp_idem (l : List Char) : delSp (delSp l) = delSp l := by
  simp [delSp, List.filter_filter]

lemma delSp_joinSp : ∀ L : List (List Char), delSp (joinSp L) = delSp L.flatten := by
  intro L
  induction L with
  | nil => simp [joinSp]
  | cons x rest ih =>
    cases rest with
    | nil => simp [joinSp]
    | cons y R =>
      simp only [joinSp, List.flatten_cons]
      rw [delSp_append, delSp_space_cons, ih, List.flatten_cons, delSp_append, delSp_append,
        delSp_append]

lemma delSp_dropLeadWs (l : List Char) (hos : OnlySpaceWs l) :
    delSp (dropLeadWs l) = delSp l := by
  induction l with
  | nil => rfl
  | cons c t ih =>
    unfold dropLeadWs at *
    rw [List.dropWhile_cons]
    by_cases hc : isWs c = true
    · have hc' : c = ' ' := hos c (by simp) hc
      subst hc'
      rw [if_pos hc, delSp_space_cons]
      exact ih (fun d hd hw => hos d (List.mem_cons_of_mem _ hd) hw)
    · rw [if_neg (by simp [hc])]

lemma delSp_reverse (l : List Char) : delSp l.reverse = (delSp l).reverse :=
  List.filter_reverse _ l

lemma delSp_trim (l : List Char) (hos : OnlySpaceWs l) : delSp (trim l) = delSp l := by
  unfold trim dropTrailWs
  have hos1 : OnlySpaceWs (dropLeadWs l) :=
    onlySpaceWs_subset l _ (fun c hc => (List.dropWhile_sublist isWs).subset hc) hos
  have hos2 : OnlySpaceWs (dropLeadWs l).reverse :=
    onlySpaceWs_subset _ _ (fun c hc => List.mem_reverse.mp hc) hos1
  calc delSp ((dropLeadWs l).reverse.dropWhile isWs).reverse
      = (delSp ((dropLeadWs l).reverse.dropWhile isWs)).reverse := delSp_reverse _
    _ = (delSp (dropLeadWs l).reverse).reverse := by
        rw [show (dropLeadWs l).reverse.dropWhile isWs = dropLeadWs (dropLeadWs l).reverse
              from rfl,
            delSp_dropLeadWs _ hos2]
    _ = delSp (dropLeadWs l) := by rw [delSp_reverse, List.reverse_reverse]
    _ = delSp l := delSp_dropLeadWs l hos

lemma wordStep_flatten (max : Nat) (chunks : List (List Char)) (seg : List Char)
    (w : List Char) :
    delSp (flattenSt (wordStep max (chunks, seg) w)) = delSp (flattenSt (chunks, seg)) ++ delSp w := by
  by_cases hwe : w.isEmpty = true
  · have : w = [] := by simpa [List.isEmpty_iff] using hwe
    subst this
    simp [wordStep, delSp]
  · simp only [wordStep, hwe, Bool.false_eq_true, if_false]
    by_cases hlen : (trim (seg ++ ' ' :: w)).length ≤ max
    · rw [if_pos hlen]
      by_cases hse : seg.isEmpty = true
      · have : seg = [] := by simpa [List.isEmpty_iff] using hse
        subst this
        simp [flattenSt, delSp_append]
      · simp only [hse, Bool.false_eq_true, if_false, flattenSt]
        rw [← List.append_assoc, delSp_append, delSp_space_cons, delSp_append]
    · rw [if_neg hlen]
      by_cases hse : seg.isEmpty = true
      · have : seg = [] := by simpa [List.isEmpty_iff] using hse
        subst this
        simp [flattenSt, delSp_append]
      · simp only [hse, Bool.false_eq_true, if_false, flattenSt]
        rw [List.flatten_append, delSp_append, delSp_append, delSp_append]
        simp [delSp]

lemma foldl_wordStep_flatten (max : Nat) (ws : List (List Char)) :
    ∀ st, delSp (flattenSt (ws.foldl (wordStep max) st)) =
      delSp (flattenSt st) ++ delSp ws.flatten := by
  induction ws with
  | nil =>
    intro st
    simp [delSp]
  | cons w rest ih =>
    intro st
    rw [List.foldl_cons]
    obtain ⟨c1, c2⟩ := st
    rw [ih (wordStep max (c1, c2) w), wordStep_flatten]
    rw [List.flatten_cons, delSp_append, List.append_assoc]

lemma delSp_chunks1 (chunks : List (List Char)) (cur : List Char) :
    delSp ((if cur.isEmpty then chunks else chunks ++ [cur]).flatten) =
      delSp chunks.flatten ++ delSp cur := by
  by_cases hce : cur.isEmpty = true
  · have : cur = [] := by simpa [List.isEmpty_iff] using hce
    subst this
    simp [delSp]
  · simp only [hce, Bool.false_eq_true, if_false]
    rw [List.flatten_append, delSp_append]
    simp [delSp]

lemma sentStep_flatten (max : Nat) (chunks : List (List Char)) (cur : List Char)
    (s : List Char) (hos : OnlySpaceWs s) :
    delSp (flattenSt (sentStep max (chunks, cur) s)) =
      delSp (flattenSt (chunks, cur)) ++ delSp s := by
  have hts : delSp (trim s) = delSp s := delSp_trim s hos
  by_cases hte : (trim s).isEmpty = true
  · have htnil : trim s = [] := by simpa [List.isEmpty_iff] using hte
    have hsnil : delSp s = [] := by rw [← hts, htnil]; rfl
    simp [sentStep, hte, hsnil]
  · simp only [sentStep, hte, Bool.false_eq_true, if_false]
    by_cases hmerge : (trim (cur ++ ' ' :: trim s)).length ≤ max
    · rw [if_pos hmerge]
      by_cases hce : cur.isEmpty = true
      · have : cur = [] := by simpa [List.isEmpty_iff] using hce
        subst this
        simp only [hce, if_true, flattenSt]
        rw [delSp_append, delSp_append, hts]
        simp [delSp]
      · simp only [hce, Bool.false_eq_true, if_false, flattenSt]
        rw [← List.append_assoc, delSp_append, delSp_space_cons, hts, delSp_append]
    · rw [if_neg hmerge]
      by_cases hlt : (trim s).length ≤ max
      · rw [if_pos hlt]
        simp only [flattenSt]
        rw [delSp_append, delSp_append, delSp_chunks1, hts, List.append_assoc]
      · rw [if_neg hlt]
        rw [foldl_wordStep_flatten, flatten_splitOnSpace, delSp_idem, hts]
        simp only [flattenSt, List.append_nil]
        rw [delSp_append, delSp_chunks1, List.append_assoc]

lemma foldl_sentStep_flatten (max : Nat) (ss : List (List Char)) :
    ∀ st, (∀ s ∈ ss, OnlySpaceWs s) →
      delSp (flattenSt (ss.foldl (sentStep max) st)) =
        delSp (flattenSt st) ++ delSp ss.flatten := by
  induction ss with
  | nil =>
    intro st _
    simp [delSp]
  | cons s rest ih =>
    intro st hss
    rw [List.foldl_cons]
    obtain ⟨c1, c2⟩ := st
    rw [ih (sentStep max (c1, c2) s) (fun s' hs' => hss s' (List.mem_cons_of_mem _ hs')),
      sentStep_flatten max c1 c2 s (hss s (by simp))]
    rw [List.flatten_cons, delSp_append, List.append_assoc]

/-- **C3 (amended).**  Joining the chunks of `_buildSpeechChunks` with
single spaces reproduces the whitespace-normalized input *up to spacing
and a leading punctuation run*: erasing spaces on both sides, the joined
chunks equal the normalized input when it fits within `maxChars`, and
otherwise equal the normalized input with its leading run of `.!?`
removed (kept whole when the text is nothing but such a run).  No other
characters are lost, duplicated or reordered.  The original claim's exact
equality fails: a leading punctuation run is dropped by the sentence
regex, and a space is inserted at a sentence split the input spelled
without one; see `chunks_join_ne_normalized`. -/
theorem buildSpeechChunks_join_delSp (text : List Char) (maxChars : Nat) :
    delSp (joinSp (buildSpeechChunks text maxChars)) =
      if (normalize text).length ≤ maxChars then delSp (normalize text)
      else delSp (sentenceCover (normalize text)) := by
  by_cases hne : (normalize text).isEmpty = true
  · have hnil : normalize text = [] := by simpa [List.isEmpty_iff] using hne
    simp [buildSpeechChunks, hne, hnil, joinSp, delSp]
  · by_cases hfit : (normalize text).length ≤ maxChars
    · unfold buildSpeechChunks
      simp only [hne, Bool.false_eq_true, if_false, if_pos hfit, joinSp]
    · unfold buildSpeechChunks
      simp only [hne, Bool.false_eq_true, if_false, if_neg hfit]
      set st := (sentenceSplit (normalize text)).foldl (sentStep maxChars) ([], []) with hstdef
      have hflat : delSp ((st.1 ++ (if st.2.isEmpty then [] else [st.2])).flatten) =
          delSp (flattenSt st) := by
        by_cases hse : st.2.isEmpty = true
        · have : st.2 = [] := by simpa [List.isEmpty_iff] using hse
          simp [hse, flattenSt, this]
        · simp only [hse, Bool.false_eq_true, if_false]
          rw [List.flatten_append]
          simp [flattenSt]
      rw [delSp_joinSp, hflat, hstdef,
        foldl_sentStep_flatten maxChars (sentenceSplit (normalize text)) ([], [])
          (sentenceSplit_onlySpaceWs text),
        sentenceSplit_flatten]
      simp [flattenSt, delSp]

/-- **C3, counterexample to the claim as stated.**  With `maxChars = 1`
the input `".a"` loses its leading period (the sentence regex never
matches it), and with `maxChars = 2` the input `"a.b"` gains a space at
the sentence boundary, so the space-joined chunks do not reproduce the
whitespace-normalized input. -/
theorem chunks_join_ne_normalized :
    joinSp (buildSpeechChunks ((".a").data) 1) ≠ normalize ((".a").data)
      ∧ joinSp (buildSpeechChunks (("a.b").data) 2) ≠ normalize (("a.b").data) := by
  decide

/-! ## Player state-machine theorems -/

/-- **C1.**  A speech-engine callback (`onstart`, `onend`, `onerror`, or a
`_handleSpeechEnd` tagged with a real attempt id, which is always
positive) whose attempt id `A` the player has advanced past mutates no
player state — `isPlaying`, `currentIndex`, the monitoring flag, all
fields are untouched — and emits no effect, so it neither notifies nor
triggers advancement: it is a no-op. -/
theorem stale_callback_noop (s : PlayerState) (A idx now : Nat) (canceled : Bool)
    (message : List Char) (hA : 0 < A) (hlt : A < s.playbackId) :
    utteranceOnStart A idx now s = (s, [])
      ∧ utteranceOnEnd A idx now s = (s, [])
      ∧ utteranceOnError A canceled message s = (s, [])
      ∧ handleSpeechEnd (some A) s = (s, []) := by
  have hne : A ≠ s.playbackId := Nat.ne_of_lt hlt
  have h0 : A ≠ 0 := Nat.pos_iff_ne_zero.mp hA
  refine ⟨?_, ?_, ?_, ?_⟩
  · simp [utteranceOnStart, hne]
  · simp [utteranceOnEnd, hne]
  · simp [utteranceOnError, hne]
  · unfold handleSpeechEnd
    rw [if_pos]
    exact ⟨by simpa using h0, by simpa using hne⟩

/-- Witness for `stale_callback_noop`: attempt 1 is stale once the player
is on attempt 2. -/
theorem stale_callback_noop_witness :
    utteranceOnStart 1 0 5000 idleState = (idleState, [])
      ∧ utteranceOnEnd 1 0 5000 idleState = (idleState, [])
      ∧ utteranceOnError 1 true [] idleState = (idleState, [])
      ∧ handleSpeechEnd (some 1) idleState = (idleState, []) :=
  stale_callback_noop idleState 1 0 5000 true [] (by decide) (by decide)

/-- **C4 (amended).**  `updateQueue` clamps `currentIndex` into
`[0, length)` for every non-empty replacement queue (to `length - 1` when
the old index was past the end; the lower bound holds because the index is
a natural number), but for an *empty* replacement queue it leaves
`currentIndex` unchanged rather than resetting it to 0 — see
`updateQueue_empty_keeps_index`. -/
theorem updateQueue_clamps (s : PlayerState) (articles : List Article) :
    (articles ≠ [] →
        (updateQueue articles s).currentIndex < articles.length
          ∧ (articles.length ≤ s.currentIndex →
              (updateQueue articles s).currentIndex = articles.length - 1))
      ∧ (articles = [] → (updateQueue articles s).currentIndex = s.currentIndex) := by
  constructor
  · intro hne
    have hlen : 0 < articles.length := List.length_pos.mpr hne
    constructor
    · unfold updateQueue
      by_cases hc : articles.length ≤ s.currentIndex ∧ 0 < articles.length
      · simp only [if_pos hc]
        omega
      · simp only [if_neg hc]
        have : ¬ articles.length ≤ s.currentIndex := fun hle => hc ⟨hle, hlen⟩
        omega
    · intro hge
      unfold updateQueue
      simp only [if_pos (And.intro hge hlen)]
  · intro hnil
    subst hnil
    unfold updateQueue
    simp

/-- Witness for `updateQueue_clamps`: shrinking a three-track queue under
index 1 to one track clamps the index to 0; replacing it with the empty
queue keeps the index. -/
theorem updateQueue_clamps_witness :
    (updateQueue [articleA] idleState).currentIndex < 1
      ∧ (updateQueue [articleA] idleState).currentIndex = 1 - 1
      ∧ (updateQueue [] idleState).currentIndex = idleState.currentIndex :=
  ⟨((updateQueue_clamps idleState [articleA]).1 (by decide)).1,
   ((updateQueue_clamps idleState [articleA]).1 (by decide)).2 (by decide),
   (updateQueue_clamps idleState []).2 rfl⟩

/-- **C4, counterexample to the claim as stated.**  Replacing the queue of
`idleState` (cursor at 1) with the empty queue leaves `currentIndex` at 1:
the code's clamp guard requires `articles.length > 0`, so the claimed
reset to 0 on an empty queue does not happen. -/
theorem updateQueue_empty_keeps_index :
    (updateQueue [] idleState).queue.length = 0
      ∧ (updateQueue [] idleState).currentIndex ≠ 0 := by
  decide

/-- **C9.**  `playTrack` with any index outside `[0, queue.length)` —
negative or past the end — returns the state unchanged and emits no
notification and no engine command; being a total Lean function, no
exception propagates. -/
theorem playTrack_out_of_bounds_noop (s : PlayerState) (i : Int)
    (h : i < 0 ∨ (s.queue.length : Int) ≤ i) :
    playTrack i s = (s, []) := by
  unfold playTrack
  rcases h with h | h
  · simp [h]
  · simp [h]

/-- Witness for `playTrack_out_of_bounds_noop`: `playTrack(5)` on a
three-track queue. -/
theorem playTrack_out_of_bounds_noop_witness :
    playTrack 5 idleState = (idleState, []) :=
  playTrack_out_of_bounds_noop idleState 5 (Or.inr (by decide))

/-- **C10.**  `play()` on a non-empty queue with `currentIndex` at or
past the queue length resets the index to 0 and starts narrating the
*first* track: it fires `onTrackChange` for track 0, starts the fetch of
track 0 under a fresh attempt id, and does not clamp to the last track. -/
theorem play_past_end_resets_to_first (s : PlayerState)
    (hne : s.queue ≠ []) (hge : s.queue.length ≤ s.currentIndex) :
    (play s).1.currentIndex = 0
      ∧ (play s).1.playbackId = s.playbackId + 1
      ∧ Effect.trackChange (s.queue.getD 0 default) 0 s.queue.length ∈ (play s).2
      ∧ Effect.startFetch (s.playbackId + 1) ((s.queue.getD 0 default).pageid) ∈ (play s).2 := by
  have h0 : ¬ s.queue.length = 0 := by
    simpa [List.length_eq_zero] using hne
  unfold play
  rw [if_neg h0, if_pos hge]
  unfold playArticleSync cancelSpeechFields
  refine ⟨rfl, rfl, ?_, ?_⟩
  · simp
  · simp

/-- Witness for `play_past_end_resets_to_first`: index 7 on a three-track
queue restarts from track 0. -/
theorem play_past_end_resets_to_first_witness :
    (play { idleState with currentIndex := 7 }).1.currentIndex = 0
      ∧ (play { idleState with currentIndex := 7 }).1.playbackId = idleState.playbackId + 1
      ∧ Effect.trackChange articleA 0 3 ∈ (play { idleState with currentIndex := 7 }).2
      ∧ Effect.startFetch (idleState.playbackId + 1) articleA.pageid
          ∈ (play { idleState with currentIndex := 7 }).2 :=
  play_past_end_resets_to_first { idleState with currentIndex := 7 } (by decide) (by decide)

/-- **C8.**  When the `_scheduleNext` timer fires with `currentIndex` on
the last track of a non-empty queue, the player does not advance:
`currentIndex` and `isPlaying` are unchanged and the only notification is
`onStateChange({playing: false, completed: true, message: "Completed tour
of all places."})`; the silent-audio keepalive is stopped. -/
theorem scheduleNext_last_track_completes (s : PlayerState)
    (hne : s.queue ≠ []) (hlast : s.currentIndex = s.queue.length - 1) :
    (scheduleNextFire s).1.currentIndex = s.currentIndex
      ∧ (scheduleNextFire s).1.isPlaying = s.isPlaying
      ∧ (scheduleNextFire s).1.queue = s.queue
      ∧ (scheduleNextFire s).1.silentAudioOn = false
      ∧ (scheduleNextFire s).2 = [Effect.stateCompleted false true completedMsg] := by
  have hlen : 0 < s.queue.length := List.length_pos.mpr hne
  have hcond : ¬ (s.currentIndex + 1 < s.queue.length) := by omega
  unfold scheduleNextFire
  rw [if_neg hcond]
  exact ⟨rfl, rfl, rfl, rfl, rfl⟩

/-- Witness for `scheduleNext_last_track_completes`: the advance decision
on the last track of a two-track queue. -/
theorem scheduleNext_last_track_completes_witness :
    (scheduleNextFire { playingState with currentIndex := 1 }).1.currentIndex = 1
      ∧ (scheduleNextFire { playingState with currentIndex := 1 }).1.isPlaying =
          playingState.isPlaying
      ∧ (scheduleNextFire { playingState with currentIndex := 1 }).1.queue = playingState.queue
      ∧ (scheduleNextFire { playingState with currentIndex := 1 }).1.silentAudioOn = false
      ∧ (scheduleNextFire { playingState with currentIndex := 1 }).2 =
          [Effect.stateCompleted false true completedMsg] :=
  scheduleNext_last_track_completes { playingState with currentIndex := 1 }
    (by decide) (by decide)

/-- **C7.**  A transport failure of the content fetch and a null/empty
extract text take the same catch path: the failure is reported through
`onError` (a fetch failure with its own message, empty text as `"No
content available"`), and the path then takes exactly the same
advance-or-stop decision as the normal-completion path
`_handleSpeechEnd`: it schedules the next-track advance if and only if
the completion path would, i.e. when auto-play is enabled and the player
was not manually stopped meanwhile; otherwise it only stops the
keepalive, leaving the cursor unchanged and starting no utterance. -/
theorem fetch_failure_error_then_advance_decision (s : PlayerState) (playId : Nat)
    (a : Article) (message : List Char) :
    handleFetchResult playId a (FetchResult.fail message) s = playbackErrorPath message s
      ∧ handleFetchResult playId a (FetchResult.ok []) s = playbackErrorPath noContentMsg s
      ∧ Effect.notifyError message ∈ (playbackErrorPath message s).2
      ∧ (Effect.scheduleNextTimer ∈ (playbackErrorPath message s).2 ↔
          Effect.scheduleNextTimer ∈ (handleSpeechEnd none s).2)
      ∧ (playbackErrorPath message s).1.currentIndex = s.currentIndex
      ∧ (∀ p i, Effect.startUtterance p i ∉ (playbackErrorPath message s).2) := by
  refine ⟨rfl, rfl, ?_, ?_, ?_, ?_⟩
  · by_cases hc : (s.autoPlayEnabled && !s.manuallyStopped) = true
    · simp [playbackErrorPath, hc]
    · simp [playbackErrorPath, hc]
  · by_cases hc : (s.autoPlayEnabled && !s.manuallyStopped) = true
    · simp [playbackErrorPath, handleSpeechEnd, hc]
    · simp [playbackErrorPath, handleSpeechEnd, hc]
  · by_cases hc : (s.autoPlayEnabled && !s.manuallyStopped) = true
    · simp [playbackErrorPath, hc]
    · simp [playbackErrorPath, hc]
  · intro p i
    by_cases hc : (s.autoPlayEnabled && !s.manuallyStopped) = true
    · simp [playbackErrorPath, hc]
    · simp [playbackErrorPath, hc]

/-- **C5 (amended).**  Once `stop()` has set the manual-stop flag (and
until the next explicit play clears it), a completion callback arriving
afterwards causes no advancement: `onend` leaves `currentIndex` and the
attempt id unchanged, schedules no advance and starts no utterance (via
`_handleSpeechEnd`, whose auto-advance branch is disabled by the flag);
a pending chunk continuation and a liveness poll are complete no-ops.
The original claim's other half is false: an inter-track advance timer
*already scheduled before* the stop still fires and restarts playback —
see `scheduled_advance_fires_after_stop`. -/
theorem after_stop_callback_no_advance (s : PlayerState) (A idx now : Nat)
    (engineSpeaking : Bool) (hstop : s.manuallyStopped = true) :
    ((utteranceOnEnd A idx now s).1.currentIndex = s.currentIndex
        ∧ (utteranceOnEnd A idx now s).1.playbackId = s.playbackId
        ∧ Effect.scheduleNextTimer ∉ (utteranceOnEnd A idx now s).2
        ∧ (∀ p i, Effect.startUtterance p i ∉ (utteranceOnEnd A idx now s).2))
      ∧ speakChunkStep A idx s = (s, [])
      ∧ checkSpeechStatus now engineSpeaking s = (s, [])
      ∧ (handleSpeechEnd (some A) s).1.currentIndex = s.currentIndex
      ∧ Effect.scheduleNextTimer ∉ (handleSpeechEnd (some A) s).2 := by
  have hcond : (s.autoPlayEnabled && !s.manuallyStopped) = false := by
    simp [hstop]
  have hend : ∀ s' : PlayerState, s'.manuallyStopped = true →
      (handleSpeechEnd (some A) s').1.currentIndex = s'.currentIndex
        ∧ (handleSpeechEnd (some A) s').1.playbackId = s'.playbackId
        ∧ Effect.scheduleNextTimer ∉ (handleSpeechEnd (some A) s').2 := by
    intro s' hstop'
    unfold handleSpeechEnd
    by_cases hg : (some A : Option Nat).getD 0 ≠ 0 ∧ (some A : Option Nat).getD 0 ≠ s'.playbackId
    · rw [if_pos hg]
      exact ⟨rfl, rfl, by simp⟩
    · rw [if_neg hg]
      have hcond' : (s'.autoPlayEnabled && !s'.manuallyStopped) = false := by
        simp [hstop']
      simp [hcond']
  refine ⟨?_, ?_, ?_, ?_, ?_⟩
  · unfold utteranceOnEnd
    by_cases hA : A ≠ s.playbackId
    · rw [if_pos hA]
      exact ⟨rfl, rfl, by simp, fun p i => by simp⟩
    · rw [if_neg hA]
      by_cases hnext : idx + 1 < ({ s with lastChunkEndTime := some now } :
          PlayerState).speechChunks.length
      · rw [if_pos hnext]
        exact ⟨rfl, rfl, by simp, fun p i => by simp⟩
      · rw [if_neg hnext]
        obtain ⟨h1, h2, h3⟩ := hend { s with lastChunkEndTime := some now } hstop
        refine ⟨h1, h2, h3, ?_⟩
        intro p i hmem
        unfold handleSpeechEnd at hmem
        by_cases hg : (some A : Option Nat).getD 0 ≠ 0 ∧
            (some A : Option Nat).getD 0 ≠ ({ s with lastChunkEndTime := some now } :
              PlayerState).playbackId
        · rw [if_pos hg] at hmem
          simp at hmem
        · rw [if_neg hg] at hmem
          have hcond' : (s.autoPlayEnabled && !s.manuallyStopped) = false := hcond
          simp only [hcond', Bool.false_eq_true, if_false] at hmem
          simp at hmem
  · simp [speakChunkStep, hstop]
  · simp [checkSpeechStatus, hstop]
  · exact (hend s hstop).1
  · exact (hend s hstop).2.2

/-- Witness for `after_stop_callback_no_advance` on the concrete
just-stopped state. -/
theorem after_stop_callback_no_advance_witness :
    ((utteranceOnEnd 1 0 9000 stoppedState).1.currentIndex = stoppedState.currentIndex
        ∧ (utteranceOnEnd 1 0 9000 stoppedState).1.playbackId = stoppedState.playbackId
        ∧ Effect.scheduleNextTimer ∉ (utteranceOnEnd 1 0 9000 stoppedState).2
        ∧ (∀ p i, Effect.startUtterance p i ∉ (utteranceOnEnd 1 0 9000 stoppedState).2))
      ∧ speakChunkStep 1 0 stoppedState = (stoppedState, [])
      ∧ checkSpeechStatus 9000 false stoppedState = (stoppedState, [])
      ∧ (handleSpeechEnd (some 1) stoppedState).1.currentIndex = stoppedState.currentIndex
      ∧ Effect.scheduleNextTimer ∉ (handleSpeechEnd (some 1) stoppedState).2 :=
  after_stop_callback_no_advance stoppedState 1 0 9000 false (by decide)

/-- **C5, counterexample to the claim as stated.**  A narration of track 0
completes, scheduling the inter-track advance; the user then calls
`stop()`.  The already-scheduled timer still fires after the pause — its
body checks neither the manual-stop flag nor the attempt id and `stop()`
keeps no handle to clear it — so `currentIndex` advances to 1 and track 1
starts (a fresh `onTrackChange` fires), contradicting "no auto-advance
fires ... until the next explicit play call". -/
theorem scheduled_advance_fires_after_stop :
    Effect.scheduleNextTimer ∈ (handleSpeechEnd (some 1) playingState).2
      ∧ (stop (handleSpeechEnd (some 1) playingState).1).1.manuallyStopped = true
      ∧ (scheduleNextFire (stop (handleSpeechEnd (some 1) playingState).1).1).1.currentIndex = 1
      ∧ Effect.trackChange articleB 1 2 ∈
          (scheduleNextFire (stop (handleSpeechEnd (some 1) playingState).1).1).2 := by
  decide

/-- **C6 (amended).**  When the liveness poll finds the engine silent
while the player believes it is speaking (and the player was not stopped
and is not inside a chunk cool-down), the completion path runs: it clears
playing state and schedules the advance — but it does *not* advance the
attempt id.  A natural `onend` arriving afterwards is a no-op **only** if
the attempt id has changed by then (e.g. the scheduled advance already
started the next track); an `onend` for the final chunk carrying the
still-current attempt id runs the completion path a second time and
schedules a second advance — see `liveness_then_stale_onend_duplicates`. -/
theorem liveness_completion_dedup_only_by_attempt (s : PlayerState) (now now2 A idx : Nat)
    (hplay : s.isPlaying = true) (hstop : s.manuallyStopped = false)
    (hchunk : s.isChunking = false) (hauto : s.autoPlayEnabled = true) :
    Effect.scheduleNextTimer ∈ (checkSpeechStatus now false s).2
      ∧ (checkSpeechStatus now false s).1.playbackId = s.playbackId
      ∧ (checkSpeechStatus now false s).1.speechChunks = s.speechChunks
      ∧ (A ≠ s.playbackId →
          utteranceOnEnd A idx now2 (checkSpeechStatus now false s).1 =
            ((checkSpeechStatus now false s).1, []))
      ∧ (A = s.playbackId → ¬ idx + 1 < s.speechChunks.length →
          Effect.scheduleNextTimer ∈
            (utteranceOnEnd A idx now2 (checkSpeechStatus now false s).1).2) := by
  have hcheck : checkSpeechStatus now false s = handleSpeechEnd none s := by
    unfold checkSpeechStatus
    simp [hstop, hchunk, hplay]
  have hhse : handleSpeechEnd none s =
      ({ s with isPlaying := false, monitorOn := false },
        [Effect.stateChange false s.currentIndex s.queue.length, Effect.scheduleNextTimer]) := by
    unfold handleSpeechEnd
    rw [if_neg (by simp)]
    simp [hauto, hstop]
  rw [hcheck, hhse]
  refine ⟨by simp, rfl, rfl, ?_, ?_⟩
  · intro hA
    unfold utteranceOnEnd
    rw [if_pos (by simpa using hA)]
  · intro hA hlast
    unfold utteranceOnEnd
    rw [if_neg (by simpa using hA)]
    rw [if_neg (by simpa using hlast)]
    unfold handleSpeechEnd
    rw [if_neg (by simp [hA])]
    simp [hauto, hstop]

/-- Witness for `liveness_completion_dedup_only_by_attempt` on the
concrete mid-narration state. -/
theorem liveness_completion_dedup_only_by_attempt_witness :
    Effect.scheduleNextTimer ∈ (checkSpeechStatus 2000 false playingState).2
      ∧ (checkSpeechStatus 2000 false playingState).1.playbackId = playingState.playbackId
      ∧ (checkSpeechStatus 2000 false playingState).1.speechChunks = playingState.speechChunks
      ∧ (1 ≠ playingState.playbackId →
          utteranceOnEnd 1 0 3000 (checkSpeechStatus 2000 false playingState).1 =
            ((checkSpeechStatus 2000 false playingState).1, []))
      ∧ (1 = playingState.playbackId → ¬ 0 + 1 < playingState.speechChunks.length →
          Effect.scheduleNextTimer ∈
            (utteranceOnEnd 1 0 3000 (checkSpeechStatus 2000 false playingState).1).2) :=
  liveness_completion_dedup_only_by_attempt playingState 2000 3000 1 0
    (by decide) (by decide) (by decide) (by decide)

/-- **C6, counterexample to the claim as stated.**  The liveness poll
detects the silent engine and runs the completion path (scheduling the
advance); the natural `onend` of the single chunk then arrives while
attempt 1 is still current and runs the completion path a *second* time,
scheduling a second advance — the completion path does not run exactly
once. -/
theorem liveness_then_stale_onend_duplicates :
    Effect.scheduleNextTimer ∈ (checkSpeechStatus 2000 false playingState).2
      ∧ Effect.scheduleNextTimer ∈
          (utteranceOnEnd 1 0 3000 (checkSpeechStatus 2000 false playingState).1).2 := by
  decide

end WalkingTour
